import Mathlib

/-!
Verification of the gttp command-line HTTP client (`main.go`).

Strings from the Go side are modelled as `List Char`; Go's byte-indexed
peek `keyvalue[i+1] == '='` coincides with peeking the next character,
because `'='` (0x3D) can never occur as a non-initial byte of a UTF-8
encoded rune.  Maps (`map[string]string`, `map[string][]string`,
`url.Values`) are modelled as association lists with unique keys, where
overwriting replaces in place; per-key value order is what the program's
observable behaviour depends on (Go map iteration order across distinct
keys is unspecified and every output path that matters sorts keys).
File contents and JSON decoding of `:=` fragments are external effects
(`os.Open`/`ioutil.ReadAll`, `encoding/json.Unmarshal`) and are passed in
as oracles (`Str → Option Str`, `Str → Option JValue`).
-/

namespace Gttp

abbrev Str := List Char

/-- Shorthand turning a Lean string literal into the `List Char` model. -/
def chars (s : String) : Str := s.data

def lbrace : Char := Char.ofNat 123

def rbrace : Char := Char.ofNat 125

/-- `unescape` from main.go lines 52-69: drop each backslash, keep the
character that follows it literally; a trailing lone backslash is dropped
(the loop ends with the escape flag still set and nothing appended). -/
def unescape : Str → Str
  | [] => []
  | [c] => if c = '\\' then [] else [c]
  | c :: d :: rest =>
    if c = '\\' then d :: unescape rest
    else c :: unescape (d :: rest)

/-- The token kinds of main.go lines 33-42. -/
inductive Kvtype where
  | kvpUnknown
  | kvpHeader
  | kvpQuery
  | kvpBody
  | kvpJSON
  | kvpFile
deriving DecidableEq, Repr

/-- The scanning loop of `parseKeyValue` (main.go lines 71-107), with the
accumulated key `k` made explicit.  The `[c]` case is the loop body when
`c` is the final character: the two-character peeks `i+1 < len(keyvalue)`
fail, so `:` and `=` fall back to their one-character meaning; a final
backslash or ordinary character runs the loop off the end, returning
`kvpUnknown`. -/
def parseKeyValueAux (k : Str) : Str → Kvtype × Str × Str
  | [] => (.kvpUnknown, [], [])
  | [c] =>
    if c = '\\' then (.kvpUnknown, [], [])
    else if c = ':' then (.kvpHeader, k, [])
    else if c = '=' then (.kvpBody, k, [])
    else if c = '@' then (.kvpFile, k, [])
    else (.kvpUnknown, [], [])
  | c :: d :: rest =>
    if c = '\\' then parseKeyValueAux (k ++ [d]) rest
    else if c = ':' then
      if d = '=' then (.kvpJSON, k, unescape rest)
      else (.kvpHeader, k, unescape (d :: rest))
    else if c = '=' then
      if d = '=' then (.kvpQuery, k, unescape rest)
      else (.kvpBody, k, unescape (d :: rest))
    else if c = '@' then (.kvpFile, k, unescape (d :: rest))
    else parseKeyValueAux (k ++ [c]) (d :: rest)

/-- `parseKeyValue` (main.go lines 71-107). -/
def parseKeyValue (s : Str) : Kvtype × Str × Str := parseKeyValueAux [] s

/-- Modelled from the spec's words (section 4.2) for the refinement claim:
locate the first unescaped delimiter scanning left to right and return its
kind together with the raw text before it and the raw text after it.
`:=` and `==` are recognised by peeking one character ahead; at the end of
the string the peek fails and the single-character meaning applies. -/
def findDelim : Str → Option (Kvtype × Str × Str)
  | [] => none
  | [c] =>
    if c = '\\' then none
    else if c = ':' then some (.kvpHeader, [], [])
    else if c = '=' then some (.kvpBody, [], [])
    else if c = '@' then some (.kvpFile, [], [])
    else none
  | c :: d :: rest =>
    if c = '\\' then (findDelim rest).map fun r => (r.1, c :: d :: r.2.1, r.2.2)
    else if c = ':' then
      if d = '=' then some (.kvpJSON, [], rest)
      else some (.kvpHeader, [], d :: rest)
    else if c = '=' then
      if d = '=' then some (.kvpQuery, [], rest)
      else some (.kvpBody, [], d :: rest)
    else if c = '@' then some (.kvpFile, [], d :: rest)
    else (findDelim (d :: rest)).map fun r => (r.1, c :: r.2.1, r.2.2)

/-- Modelled from the spec's words (section 4.2): the kind is given by the
first unescaped delimiter, the key is the escape-decoded text before it
and the value the escape-decoded text after it; no delimiter means
`kvpUnknown`. -/
def parseKeyValueSpec (s : Str) : Kvtype × Str × Str :=
  match findDelim s with
  | none => (.kvpUnknown, [], [])
  | some (t, p, r) => (t, unescape p, unescape r)

/-- Scan tracking the escape flag: `true` iff the remaining text contains
no unescaped delimiter (`:`, `=`, `@`) and does not end inside a pending
escape.  Used to phrase the end-of-string fallback claim. -/
def noDelimScan : Bool → Str → Bool
  | true, [] => false
  | false, [] => true
  | true, _ :: rest => noDelimScan false rest
  | false, c :: rest =>
    if c = '\\' then noDelimScan true rest
    else if c = ':' ∨ c = '=' ∨ c = '@' then false
    else noDelimScan false rest

def cleanNoDelim (p : Str) : Bool := noDelimScan false p

/-- The aggregated `kvpairs` bundle (main.go lines 44-50), with Go maps
modelled as association lists with unique keys. -/
structure Kvpairs where
  headers : List (Str × Str)
  query : List (Str × List Str)
  body : List (Str × List Str)
  js : List (Str × Str)
  file : List (Str × Str)
deriving DecidableEq, Repr

def emptyKvpairs : Kvpairs := ⟨[], [], [], [], []⟩

/-- Map read, `m[k]` returning an option. -/
def lookupA {α : Type} : List (Str × α) → Str → Option α
  | [], _ => none
  | (k', v) :: rest, k => if k' = k then some v else lookupA rest k

/-- Map write, `m[k] = v`: replace in place or append a fresh key. -/
def setA {α : Type} : List (Str × α) → Str → α → List (Str × α)
  | [], k, v => [(k, v)]
  | (k', v') :: rest, k, v =>
    if k' = k then (k, v) :: rest else (k', v') :: setA rest k v

/-- Read of a Go `map[string][]string`: a missing key yields nil. -/
def getQ (m : List (Str × List Str)) (k : Str) : List Str :=
  (lookupA m k).getD []

/-- One iteration of the `parseArgs` loop (main.go lines 119-145).
The `kvpBody` case reproduces the source exactly: it reads
`vs := kvp.query[k]` — the QUERY map, not the body map — and stores
`append(vs, v)` into `kvp.body[k]`, so a repeated body key overwrites
instead of appending. -/
def parseArgsStep (kvp : Kvpairs) (arg : Str) : Except Str Kvpairs :=
  match parseKeyValue arg with
  | (.kvpUnknown, _, _) => .error (chars "bad key/value: " ++ arg)
  | (.kvpHeader, k, v) => .ok { kvp with headers := setA kvp.headers k v }
  | (.kvpQuery, k, v) => .ok { kvp with query := setA kvp.query k (getQ kvp.query k ++ [v]) }
  | (.kvpBody, k, v) => .ok { kvp with body := setA kvp.body k (getQ kvp.query k ++ [v]) }
  | (.kvpJSON, k, v) => .ok { kvp with js := setA kvp.js k v }
  | (.kvpFile, k, v) => .ok { kvp with file := setA kvp.file k v }

/-- `parseArgs` (main.go lines 109-148). -/
def parseArgs (args : List Str) : Except Str Kvpairs :=
  args.foldlM parseArgsStep emptyKvpairs

/-- The shape produced by generic JSON decoding (`interface{}` after
`encoding/json` unmarshalling).  `num` carries the decimal text the Go
side prints for the number: the raw `json.Number` literal on the response
rendering path, and the shortest round-trip `%g` rendering of the decoded
`float64` on the body-coercion path (IEEE-754 formatting itself is
external library behaviour and is not re-modelled). -/
inductive JValue where
  | null
  | bool (b : Bool)
  | str (s : Str)
  | num (s : Str)
  | obj (members : List (Str × JValue))
  | arr (elems : List JValue)

/-- Bytewise `<=` on strings, as used by Go's `sort.Strings` (UTF-8 byte
order coincides with code-point order). -/
def strLe : Str → Str → Bool
  | [], _ => true
  | _ :: _, [] => false
  | c :: a, d :: b =>
    if c.toNat = d.toNat then strLe a b else decide (c.toNat < d.toNat)

/-- Sort an association list by key, the model of collecting a Go map's
keys, `sort.Strings`, and indexing back (keys are unique). -/
def sortPairs {α : Type} (l : List (Str × α)) : List (Str × α) :=
  List.insertionSort (fun a b => strLe a.1 b.1 = true) l

/-- Lower-case hex digit, as used by `strconv.Quote` escapes. -/
def hexDigit (n : Nat) : Char :=
  if n < 10 then Char.ofNat (48 + n) else Char.ofNat (87 + n % 16)

/-- One character of the `strconv.Quote` model: standard two-character
escapes, printable characters kept, other control bytes hex-escaped. -/
def quoteChar (c : Char) : Str :=
  if c = '"' then ['\\', '"']
  else if c = '\\' then ['\\', '\\']
  else if c = '\n' then ['\\', 'n']
  else if c = '\t' then ['\\', 't']
  else if c = '\r' then ['\\', 'r']
  else if 32 ≤ c.toNat ∧ c.toNat < 127 then [c]
  else if 127 < c.toNat then [c]
  else ['\\', 'x', hexDigit (c.toNat / 16), hexDigit (c.toNat % 16)]

def escapeChars : Str → Str
  | [] => []
  | c :: rest => quoteChar c ++ escapeChars rest

/-- Model of Go's `strconv.Quote`. -/
def goQuote (s : Str) : Str := '"' :: escapeChars s ++ ['"']

/-- `depth` units of the four-space indent printed by the
`for i := 0; i < depth; i++ { fmt.Print("    ") }` loops. -/
def indentN : Nat → Str
  | 0 => []
  | n + 1 => chars "    " ++ indentN n

/-- Join a list of strings with a separator between consecutive entries
(the effect of the `needNL` flag in the printing loops). -/
def sepConcat (sep : Str) : List Str → Str
  | [] => []
  | [x] => x
  | x :: y :: rest => x ++ sep ++ sepConcat sep (y :: rest)

mutual
/-- Sort every object's member list by key, recursively.  Go sorts each
map's keys at the moment it prints (`printJSON`) or marshals
(`json.Marshal`) that level; pre-sorting the whole tree once is the same
transformation and keeps the renderer structurally recursive. -/
def sortJ : JValue → JValue
  | .obj l => .obj (sortPairs (sortMembers l))
  | .arr l => .arr (sortElemsJ l)
  | v => v
def sortMembers : List (Str × JValue) → List (Str × JValue)
  | [] => []
  | (k, v) :: rest => (k, sortJ v) :: sortMembers rest
def sortElemsJ : List JValue → List JValue
  | [] => []
  | v :: rest => sortJ v :: sortElemsJ rest
end

mutual
/-- `printJSON` (main.go lines 493-586) on a tree whose objects are
already key-sorted, with the `ct.ChangeColor`/`ct.ResetColor` calls
dropped: colour is a display annotation producing no structural text.
`fmt.Println("{")` is the `'{', '\n'` prefix, the member loop is
`renderMembers`, `fmt.Println("")` the closing newline, then the
`depth-1` indent and the closing brace. -/
def renderSorted (depth : Nat) (isKey : Bool) : JValue → Str
  | .null => chars "null"
  | .bool true => chars "true"
  | .bool false => chars "false"
  | .str s => goQuote s
  | .num s => s
  | .obj [] => [lbrace, rbrace]
  | .obj (kv :: rest) =>
    [lbrace, '\n'] ++ renderMembers depth false (kv :: rest)
      ++ '\n' :: indentN (depth - 1) ++ [rbrace]
  | .arr [] => chars "[]"
  | .arr (v :: rest) =>
    chars "[\n" ++ renderElems depth false (v :: rest)
      ++ '\n' :: indentN (depth - 1) ++ [']']
/-- The object member loop of `printJSON` with its `needNL` flag.  The
source's `printJSON(depth+1, key, true)` call lands in the string case,
where `isKey` only selects the colour, so the key renders as
`strconv.Quote(key)`. -/
def renderMembers (depth : Nat) (needNL : Bool) : List (Str × JValue) → Str
  | [] => []
  | (k, v) :: rest =>
    (if needNL then chars ",\n" else []) ++ indentN depth
      ++ goQuote k ++ chars ": "
      ++ renderSorted (depth + 1) false v ++ renderMembers depth true rest
/-- The array element loop of `printJSON` with its `needNL` flag. -/
def renderElems (depth : Nat) (needNL : Bool) : List JValue → Str
  | [] => []
  | v :: rest =>
    (if needNL then chars ",\n" else []) ++ indentN depth
      ++ renderSorted (depth + 1) false v ++ renderElems depth true rest
end

/-- `printJSON` (main.go lines 493-586): text written to standard output,
colour dropped. -/
def renderJSON (depth : Nat) (isKey : Bool) (v : JValue) : Str :=
  renderSorted depth isKey (sortJ v)

/-- `url.Values`: a multi-valued map. -/
abbrev Vals := List (Str × List Str)

/-- `url.Values.Add`: append the value to the key's slice. -/
def addV (vals : Vals) (k v : Str) : Vals := setA vals k (getQ vals k ++ [v])

/-- The `map[string]interface{}` arm of `addValues`: the source recurses
with each member KEY (a `string`, the member value is discarded), which
immediately lands in the string case, i.e. `values.Add(key, k)` per
member. -/
def addObjKeys (vals : Vals) (key : Str) : List (Str × JValue) → Vals
  | [] => vals
  | (k, _) :: rest => addObjKeys (addV vals key k) key rest

mutual
/-- `addValues` (main.go lines 150-174).  The second component collects
the `log.Println("unknown type: ", ...)` diagnostics, which in the source
go to the log stream without aborting.  The only decoded-JSON shape
outside the matched cases is `nil` (JSON null), which hits the `default`
arm. -/
def addValues (vals : Vals) (key : Str) : JValue → Vals × List Str
  | .null => (vals, [chars "unknown type"])
  | .bool true => (addV vals key (chars "true"), [])
  | .bool false => (addV vals key (chars "false"), [])
  | .str s => (addV vals key s, [])
  | .num s => (addV vals key s, [])
  | .obj l => (addObjKeys vals key l, [])
  | .arr l => addElems vals key l
/-- The `[]interface{}` arm of `addValues`: recurse on each element under
the same key. -/
def addElems (vals : Vals) (key : Str) : List JValue → Vals × List Str
  | [] => (vals, [])
  | v :: rest =>
    let r := addValues vals key v
    let r2 := addElems r.1 key rest
    (r2.1, r.2 ++ r2.2)
end

/-- A value of the `bodyparams` map (`map[string]interface{}`, main.go
lines 263, 276-290, 384): a single body field collapses to a Go `string`,
a multi-valued body field stays a Go `[]string`, and a `:=` fragment is
the decoded JSON value. -/
inductive BodyVal where
  | str (s : Str)
  | strList (l : List Str)
  | jval (v : JValue)

/-- `addValues` as applied to one `bodyparams` entry.  A `[]string` (from
a multi-valued body field) is not a `[]interface{}`, so in Go it falls
into the `default` arm: logged as an unknown type and skipped. -/
def addValuesB (vals : Vals) (key : Str) : BodyVal → Vals × List Str
  | .str s => (addV vals key s, [])
  | .strList _ => (vals, [chars "unknown type"])
  | .jval v => addValues vals key v

/-- The `for k, v := range bodyparams { addValues(values, k, v) }` loops
(main.go lines 353-355 and 389-391).  Go iterates the map in an
unspecified order; each entry only ever adds values under its own key, so
the resulting `url.Values` content per key does not depend on that order,
and the model folds in association-list order. -/
def addValuesAll (bp : List (Str × BodyVal)) : Vals × List Str :=
  bp.foldl (fun acc kv =>
    let r := addValuesB acc.1 kv.1 kv.2
    (r.1, acc.2 ++ r.2)) ([], [])

mutual
/-- Model of `encoding/json.Marshal` on a decoded value whose objects are
already key-sorted (Go's `json.Marshal` sorts map keys): compact JSON
text.  String escaping reuses the quote model; the handful of characters
`encoding/json` additionally escapes never affect any claim. -/
def marshalSorted : JValue → Str
  | .null => chars "null"
  | .bool true => chars "true"
  | .bool false => chars "false"
  | .str s => goQuote s
  | .num s => s
  | .obj l => lbrace :: marshalMembersS l ++ [rbrace]
  | .arr l => '[' :: marshalElemsS l ++ [']']
def marshalMembersS : List (Str × JValue) → Str
  | [] => []
  | (k, v) :: rest =>
    goQuote k ++ ':' :: marshalSorted v
      ++ (if rest.isEmpty then [] else [',']) ++ marshalMembersS rest
def marshalElemsS : List JValue → Str
  | [] => []
  | v :: rest =>
    marshalSorted v ++ (if rest.isEmpty then [] else [',']) ++ marshalElemsS rest
end

def marshalJ (v : JValue) : Str := marshalSorted (sortJ v)

/-- Marshal one `bodyparams` value: a Go `string` as a JSON string, a Go
`[]string` as an array of strings, a decoded fragment as itself. -/
def marshalBV : BodyVal → Str
  | .str s => goQuote s
  | .strList l => '[' :: sepConcat (chars ",") (l.map goQuote) ++ [']']
  | .jval v => marshalJ v

/-- `json.Marshal(bodyparams)` (main.go line 395): map keys sorted,
compact output. -/
def jsonMarshal (bp : List (Str × BodyVal)) : Str :=
  lbrace :: sepConcat (chars ",")
      ((sortPairs bp).map fun kv => goQuote kv.1 ++ ':' :: marshalBV kv.2)
    ++ [rbrace]

/-- UTF-8 bytes of a character, for percent-encoding. -/
def utf8Bytes (c : Char) : List Nat :=
  let n := c.toNat
  if n < 128 then [n]
  else if n < 2048 then [192 + n / 64, 128 + n % 64]
  else if n < 65536 then [224 + n / 4096, 128 + n / 64 % 64, 128 + n % 64]
  else [240 + n / 262144, 128 + n / 4096 % 64, 128 + n / 64 % 64, 128 + n % 64]

/-- Upper-case hex digit, as written by `url` percent-escapes. -/
def hexDigitU (n : Nat) : Char :=
  if n < 10 then Char.ofNat (48 + n) else Char.ofNat (55 + n % 16)

/-- Characters `url.QueryEscape` leaves alone: alphanumerics and
`-`, `_`, `.`, `~`. -/
def isUnreservedChar (c : Char) : Bool :=
  (decide (65 ≤ c.toNat) && decide (c.toNat ≤ 90))
    || (decide (97 ≤ c.toNat) && decide (c.toNat ≤ 122))
    || (decide (48 ≤ c.toNat) && decide (c.toNat ≤ 57))
    || c == '-' || c == '_' || c == '.' || c == '~'

def pctByte (b : Nat) : Str := ['%', hexDigitU (b / 16 % 16), hexDigitU (b % 16)]

/-- `url.QueryEscape` on one character: keep unreserved characters, turn
a space into `+`, percent-encode every UTF-8 byte otherwise. -/
def qEscChar (c : Char) : Str :=
  if isUnreservedChar c then [c]
  else if c = ' ' then ['+']
  else (utf8Bytes c).foldr (fun b acc => pctByte b ++ acc) []

def qEsc : Str → Str
  | [] => []
  | c :: rest => qEscChar c ++ qEsc rest

/-- Hex digit value for percent-decoding. -/
def hexVal (c : Char) : Option Nat :=
  if 48 ≤ c.toNat ∧ c.toNat ≤ 57 then some (c.toNat - 48)
  else if 65 ≤ c.toNat ∧ c.toNat ≤ 70 then some (c.toNat - 55)
  else if 97 ≤ c.toNat ∧ c.toNat ≤ 102 then some (c.toNat - 87)
  else none

/-- `url.QueryUnescape` model: `+` becomes a space, `%XX` becomes the
byte (kept as a character; multi-byte runes are not reassembled, which no
claim exercises), anything else is literal. -/
def qUnesc : Str → Str
  | [] => []
  | '%' :: a :: b :: rest =>
    match hexVal a, hexVal b with
    | some x, some y => Char.ofNat (16 * x + y) :: qUnesc rest
    | _, _ => '%' :: qUnesc (a :: b :: rest)
  | '+' :: rest => ' ' :: qUnesc rest
  | c :: rest => c :: qUnesc rest

/-- Split on `&` (the component separator of a raw query). -/
def splitAmp : Str → List Str
  | [] => [[]]
  | '&' :: rest => [] :: splitAmp rest
  | c :: rest =>
    match splitAmp rest with
    | [] => [[c]]
    | p :: ps => (c :: p) :: ps

/-- Split a query component at its first `=`; a missing `=` leaves the
value empty. -/
def splitEq : Str → Str × Str
  | [] => ([], [])
  | '=' :: rest => ([], rest)
  | c :: rest => let r := splitEq rest; (c :: r.1, r.2)

/-- Model of `url.ParseQuery`, the content of `req.URL.Query()`: split on
`&`, skip empty components, split each at the first `=`, percent-decode
both halves, append per key. -/
def parseQuery (s : Str) : Vals :=
  if s = [] then []
  else (splitAmp s).foldl (fun vals comp =>
    if comp = [] then vals
    else
      let kv := splitEq comp
      addV vals (qUnesc kv.1) (qUnesc kv.2)) []

/-- The query-merging loop of main.go lines 266-274: every aggregated
query value is added to the parsed query, preserving per-key order. -/
def addQueryParams (qp : Vals) (query : List (Str × List Str)) : Vals :=
  query.foldl (fun acc kv => kv.2.foldl (fun a v => addV a kv.1 v) acc) qp

/-- `url.Values.Encode`: keys sorted, each value percent-escaped,
components joined with `&`. -/
def encodeValues (vals : Vals) : Str :=
  sepConcat ['&']
    ((sortPairs vals).foldr (fun kv acc =>
      kv.2.map (fun v => qEsc kv.1 ++ '=' :: qEsc v) ++ acc) [])

/-- The fatal conditions of one invocation.  `noArgs` models the usage
return for an empty argument list and `noUrl` the out-of-range index when
a method token is the only argument; the remaining constructors are the
`log.Fatal` calls of main.go. -/
inductive GErr where
  | noArgs
  | noUrl
  | badKeyValue (msg : Str)
  | invalidJson (v : Str)
  | multipleRawBodyFiles
  | fileOpen (path : Str)
deriving DecidableEq, Repr

/-- The compiled request: method, URL split into base and raw query, the
optional payload, the content type set by body assembly (user headers and
the fixed default headers are orthogonal to every claim), and the
non-fatal `log.Println` warnings emitted while assembling. -/
structure Result where
  method : Str
  urlBase : Str
  rawQuery : Str
  body : Option Str
  contentType : Option Str
  warnings : List Str
deriving DecidableEq, Repr

/-- State after the method/URL prologue of `main` (lines 225-259). -/
structure ParsedCmd where
  method : Str
  methodProvided : Bool
  urlBase : Str
  rawQuery0 : Str
  kvp : Kvpairs
deriving DecidableEq, Repr

/-- The leading method tokens recognised by the `switch` at main.go
lines 232-237. -/
def methodNames : List Str :=
  [chars "GET", chars "HEAD", chars "POST", chars "PUT", chars "DELETE",
   chars "PURGE", chars "TRACE", chars "OPTIONS", chars "CONNECT", chars "PATCH"]

def hasPfx : Str → Str → Bool
  | [], _ => true
  | _ :: _, [] => false
  | c :: p, d :: s => c == d && hasPfx p s

/-- Split a URL at its first `?` into base and raw query. -/
def splitUrl : Str → Str × Str
  | [] => ([], [])
  | c :: rest =>
    if c = '?' then ([], rest)
    else let r := splitUrl rest; (c :: r.1, r.2)

/-- Main.go lines 204-259: the form flag presets POST, a leading method
token overrides it, `http://` is prefixed when no scheme is present, and
the remaining arguments are aggregated. -/
def parseCmdline (postform : Bool) (argv : List Str) : Except GErr ParsedCmd :=
  match argv with
  | [] => .error .noArgs
  | a0 :: rest0 =>
    let m0 : Str × Bool := if postform then (chars "POST", true) else (chars "GET", false)
    let st : (Str × Bool) × List Str :=
      if a0 ∈ methodNames then ((a0, true), rest0) else (m0, a0 :: rest0)
    match st.2 with
    | [] => .error .noUrl
    | u0 :: rest =>
      let u := if hasPfx (chars "http://") u0 || hasPfx (chars "https://") u0 then u0
               else chars "http://" ++ u0
      match parseArgs rest with
      | .error m => .error (.badKeyValue m)
      | .ok kvp => .ok ⟨st.1.1, st.1.2, (splitUrl u).1, (splitUrl u).2, kvp⟩

/-- One `bodyparams` entry for a body field (main.go lines 276-282): a
single-element list collapses to a scalar string, a longer list stays a
string slice. -/
def bodyFieldVal (vs : List Str) : BodyVal :=
  if vs.length = 1 then .str (vs.headD []) else .strList vs

/-- The body-field loop of main.go lines 276-282. -/
def mergeBodyFields (body : List (Str × List Str)) : List (Str × BodyVal) :=
  body.foldl (fun m kv => setA m kv.1 (bodyFieldVal kv.2)) []

/-- The `:=`-fragment loop of main.go lines 284-290: each fragment is
decoded — a failure is fatal — and stored, overwriting any colliding
entry already present. -/
def mergeJsonFragments (jdec : Str → Option JValue) (js : List (Str × Str))
    (m0 : List (Str × BodyVal)) : Except GErr (List (Str × BodyVal)) :=
  js.foldlM (fun m kv =>
    match jdec kv.2 with
    | none => .error (.invalidJson kv.2)
    | some j => .ok (setA m kv.1 (.jval j))) m0

/-- The `bodyparams` merge of main.go lines 276-290: body fields first,
json fragments after. -/
def bodyParamsOf (jdec : Str → Option JValue) (kvp : Kvpairs) :
    Except GErr (List (Str × BodyVal)) :=
  mergeJsonFragments jdec kvp.js (mergeBodyFields kvp.body)

def ctOctetStream : Str := chars "application/octet-stream"

/-- `writer.FormDataContentType()` with the random boundary abstracted
away, as no claim inspects it. -/
def ctMultipart : Str := chars "multipart/form-data"

def ctUrlEncoded : Str := chars "application/x-www-form-urlencoded"

def ctJson : Str := chars "application/json"

def rawBodyWarning : Str := chars "extra body parameters ignored when setting raw body"

/-- `filepath.Base` model: the text after the last slash. -/
def lastPathComponent (s : Str) : Str :=
  s.foldl (fun acc c => if c = '/' then [] else acc ++ [c]) []

/-- Model of the multipart payload (main.go lines 331-366): the file
parts in order, then the coerced form fields; the boundary framing is
abstracted, as no claim inspects the bytes. -/
def multipartBody (fileParts : List (Str × Str × Str)) (vals : Vals) : Str :=
  fileParts.foldl (fun acc p =>
    acc ++ chars "part:" ++ p.1 ++ '=' :: lastPathComponent p.2.1
      ++ '\n' :: p.2.2 ++ ['\n']) []
  ++ vals.foldl (fun acc kv =>
      kv.2.foldl (fun a v => a ++ chars "field:" ++ kv.1 ++ '=' :: v ++ ['\n']) acc) []

/-- The body-assembly block of main.go lines 261-398, as a pure function
of the bundle, the merged body parameters, the two flags and the
file-content oracle `fs` (`none` models an `os.Open`/read failure).
Returns payload, content type set by this block, and the non-fatal
warnings logged.  `rawBodyFilename` is non-empty exactly when the file
map sends `"-"` to a non-empty path; `postFiles` is true when files exist
and none of them is the `"-"` entry. -/
def assembleBody (fs : Str → Option Str) (postform useMultipart : Bool)
    (kvp : Kvpairs) (bp : List (Str × BodyVal)) :
    Except GErr (Option Str × Option Str × List Str) :=
  let raw := (lookupA kvp.file (chars "-")).getD []
  let postFiles := !kvp.file.isEmpty && (lookupA kvp.file (chars "-")).isNone
  if raw ≠ [] then
    if 1 < kvp.file.length then .error .multipleRawBodyFiles
    else
      let warns := if bp.isEmpty then [] else [rawBodyWarning]
      match fs raw with
      | none => .error (.fileOpen raw)
      | some content => .ok (some content, some ctOctetStream, warns)
  else if postFiles && useMultipart then
    match kvp.file.mapM (fun kv =>
      match fs kv.2 with
      | none => Except.error (GErr.fileOpen kv.2)
      | some c => Except.ok (kv.1, kv.2, c)) with
    | .error e => .error e
    | .ok fileParts =>
      let r := addValuesAll bp
      .ok (some (multipartBody fileParts r.1), some ctMultipart, r.2)
  else if !bp.isEmpty || !kvp.file.isEmpty then
    match kvp.file.foldlM (fun m kv =>
      match fs kv.2 with
      | none => Except.error (GErr.fileOpen kv.2)
      | some c => Except.ok (setA m kv.1 (BodyVal.str c))) bp with
    | .error e => .error e
    | .ok bp2 =>
      if postform then
        let r := addValuesAll bp2
        .ok (some (encodeValues r.1), some ctUrlEncoded, r.2)
      else .ok (some (jsonMarshal bp2), some ctJson, [])
  else .ok (none, none, [])

/-- Main.go lines 261-407 after the prologue: merge query parameters into
the raw query, merge body parameters, assemble the body, and default the
method to POST when a payload was produced and no method was explicitly
supplied. -/
def finishRequest (fs : Str → Option Str) (jdec : Str → Option JValue)
    (postform useMultipart : Bool) (pc : ParsedCmd) : Except GErr Result :=
  let rq := if !pc.kvp.query.isEmpty
            then encodeValues (addQueryParams (parseQuery pc.rawQuery0) pc.kvp.query)
            else pc.rawQuery0
  match bodyParamsOf jdec pc.kvp with
  | .error e => .error e
  | .ok bp =>
    match assembleBody fs postform useMultipart pc.kvp bp with
    | .error e => .error e
    | .ok (bodyOpt, ctOpt, warns) =>
      .ok { method := if bodyOpt.isSome && !pc.methodProvided then chars "POST" else pc.method,
            urlBase := pc.urlBase, rawQuery := rq,
            body := bodyOpt, contentType := ctOpt, warnings := warns }

/-- The whole request-compilation pipeline of `main`. -/
def compile (fs : Str → Option Str) (jdec : Str → Option JValue)
    (postform useMultipart : Bool) (argv : List Str) : Except GErr Result :=
  match parseCmdline postform argv with
  | .error e => .error e
  | .ok pc => finishRequest fs jdec postform useMultipart pc

/-- A filesystem where no file opens, for concrete instantiations. -/
def fsEmpty : Str → Option Str := fun _ => none

/-- A decoder oracle that is never consulted in concrete instantiations
without `:=` fragments. -/
def jdecNone : Str → Option JValue := fun _ => none

theorem unescape_cons (c : Char) (p : Str) (h : ¬ c = '\\') :
    unescape (c :: p) = c :: unescape p := by
  cases p <;> simp [unescape, h]

theorem unescape_esc (d : Char) (p : Str) :
    unescape ('\\' :: d :: p) = d :: unescape p := by
  simp [unescape]

/-- The scanning loop with accumulated key `k` is the spec-side search for
the first unescaped delimiter, with `k` prepended to the decoded key. -/
theorem parseKeyValueAux_eq_findDelim (k s : Str) :
    parseKeyValueAux k s =
      (match findDelim s with
       | none => (Kvtype.kvpUnknown, ([] : Str), ([] : Str))
       | some (t, p, r) => (t, k ++ unescape p, unescape r)) := by
  induction k, s using parseKeyValueAux.induct with
  | case1 k => rfl
  | case2 k => rfl
  | case3 k _ => simp [parseKeyValueAux, findDelim, unescape]
  | case4 k _ _ => simp [parseKeyValueAux, findDelim, unescape]
  | case5 k _ _ _ => simp [parseKeyValueAux, findDelim, unescape]
  | case6 k c h1 h2 h3 h4 => simp [parseKeyValueAux, findDelim, unescape, h1, h2, h3, h4]
  | case7 k d rest ih =>
    cases hfd : findDelim rest with
    | none => simp [parseKeyValueAux, findDelim, hfd, ih]
    | some r =>
      obtain ⟨t, p, rr⟩ := r
      simp [parseKeyValueAux, findDelim, hfd, ih, unescape_esc]
  | case8 k rest _ => simp [parseKeyValueAux, findDelim, unescape]
  | case9 k d rest hd _ => simp [parseKeyValueAux, findDelim, unescape, hd]
  | case10 k rest _ _ => simp [parseKeyValueAux, findDelim, unescape]
  | case11 k d rest hd _ _ => simp [parseKeyValueAux, findDelim, unescape, hd]
  | case12 k d rest _ _ _ => simp [parseKeyValueAux, findDelim, unescape]
  | case13 k c d rest h1 h2 h3 h4 ih =>
    cases hfd : findDelim (d :: rest) with
    | none => simp [parseKeyValueAux, findDelim, hfd, ih, h1, h2, h3, h4]
    | some r =>
      obtain ⟨t, p, rr⟩ := r
      simp [parseKeyValueAux, findDelim, hfd, ih, h1, h2, h3, h4, unescape_cons]

/-- C2: the Token Classifier determines the Kind from the first unescaped
delimiter found scanning left to right (`:=` Json, `:` Header, `==`
Query, `=` Body, `@` File, none Unknown), with the key the escape-decoded
text before the delimiter and the value the escape-decoded text after it
— stated as equality with the spec-side classifier — together with all
the concrete classifications the claim lists, including the escaped
delimiter being literal. -/
theorem spec_C2_classifier :
    (∀ s : Str, parseKeyValue s = parseKeyValueSpec s)
      ∧ parseKeyValue (chars "a:b") = (.kvpHeader, chars "a", chars "b")
      ∧ parseKeyValue (chars "a:=1") = (.kvpJSON, chars "a", chars "1")
      ∧ parseKeyValue (chars "a==b") = (.kvpQuery, chars "a", chars "b")
      ∧ parseKeyValue (chars "a=b") = (.kvpBody, chars "a", chars "b")
      ∧ parseKeyValue (chars "a@file.txt") = (.kvpFile, chars "a", chars "file.txt")
      ∧ parseKeyValue (chars "noDelimiter") = (.kvpUnknown, [], [])
      ∧ parseKeyValue (chars "a\\:=b") = (.kvpBody, chars "a:", chars "b") := by
  refine ⟨fun s => ?_, by decide, by decide, by decide, by decide, by decide, by decide,
    by decide⟩
  unfold parseKeyValue parseKeyValueSpec
  rw [parseKeyValueAux_eq_findDelim]
  cases hfd : findDelim s with
  | none => rfl
  | some r => obtain ⟨t, p, rr⟩ := r; simp

/-- C9: escape-decoding leaves a backslash-free string unchanged, and is
therefore idempotent on such strings. -/
theorem spec_C9_unescape_id (s : Str) (h : '\\' ∉ s) :
    unescape s = s ∧ unescape (unescape s) = unescape s := by
  have he : unescape s = s := by
    induction s with
    | nil => rfl
    | cons c rest ih =>
      have hc : ¬ c = '\\' := by intro hc; exact h (by simp [hc])
      have hrest : '\\' ∉ rest := fun hm => h (List.mem_cons_of_mem _ hm)
      rw [unescape_cons c rest hc, ih hrest]
  exact ⟨he, by rw [he, he]⟩

theorem spec_C9_witness :
    unescape (chars "abc") = chars "abc"
      ∧ unescape (unescape (chars "abc")) = unescape (chars "abc") :=
  spec_C9_unescape_id (chars "abc") (by decide)

/-- C1 (code bug): the `kvpBody` arm of the aggregation loop reads the
QUERY map (`vs := kvp.query[k]`) instead of the body map, so the second
`k=v2` token overwrites `k=v1` and the body mapping for `k` ends as
`["v2"]`, not the `["v1", "v2"]` the claim (and the spec's append rule)
requires. -/
theorem spec_C1_body_overwrites :
    (parseArgs [chars "k=v1", chars "k=v2"]).map (fun kvp => lookupA kvp.body (chars "k"))
        = .ok (some [chars "v2"])
      ∧ (some [chars "v2"] : Option (List Str)) ≠ some [chars "v1", chars "v2"] :=
  ⟨rfl, by decide⟩

/-- Adding a trailing `:` or `=` to a clean prefix (no unescaped
delimiter, no pending escape) makes that character the first delimiter,
found at the very end of the string. -/
theorem findDelim_snoc (p : Str) (hp : cleanNoDelim p = true) :
    findDelim (p ++ [':']) = some (.kvpHeader, p, [])
      ∧ findDelim (p ++ ['=']) = some (.kvpBody, p, []) := by
  have H : ∀ (n : Nat) (q : Str), q.length ≤ n → cleanNoDelim q = true →
      findDelim (q ++ [':']) = some (.kvpHeader, q, [])
        ∧ findDelim (q ++ ['=']) = some (.kvpBody, q, []) := by
    intro n
    induction n with
    | zero =>
      intro q hq _
      cases q with
      | nil => exact ⟨rfl, rfl⟩
      | cons c rest => simp at hq
    | succ n ih =>
      intro q hq hclean
      cases q with
      | nil => exact ⟨rfl, rfl⟩
      | cons c rest =>
        by_cases hc : c = '\\'
        · subst hc
          cases rest with
          | nil => simp [cleanNoDelim, noDelimScan] at hclean
          | cons e rest' =>
            have hclean' : cleanNoDelim rest' = true := by
              simpa [cleanNoDelim, noDelimScan] using hclean
            have hlen' : rest'.length ≤ n := by simp at hq; omega
            obtain ⟨ih1, ih2⟩ := ih rest' hlen' hclean'
            constructor
            · show findDelim ('\\' :: e :: (rest' ++ [':'])) = _
              simp [findDelim, ih1]
            · show findDelim ('\\' :: e :: (rest' ++ ['='])) = _
              simp [findDelim, ih2]
        · have hsplit : ¬(c = ':' ∨ c = '=' ∨ c = '@') ∧ cleanNoDelim rest = true := by
            by_cases hdelim : c = ':' ∨ c = '=' ∨ c = '@'
            · simp [cleanNoDelim, noDelimScan, hc, hdelim] at hclean
            · exact ⟨hdelim, by simpa [cleanNoDelim, noDelimScan, hc, hdelim] using hclean⟩
          obtain ⟨hdelim, hclean'⟩ := hsplit
          push_neg at hdelim
          obtain ⟨d1, d2, d3⟩ := hdelim
          cases rest with
          | nil =>
            constructor
            · show findDelim (c :: [':']) = _
              simp [findDelim, hc, d1, d2, d3]
            · show findDelim (c :: ['=']) = _
              simp [findDelim, hc, d1, d2, d3]
          | cons e rest' =>
            have hlen' : (e :: rest').length ≤ n := by simp at hq ⊢; omega
            obtain ⟨ih1, ih2⟩ := ih (e :: rest') hlen' hclean'
            constructor
            · show findDelim (c :: e :: (rest' ++ [':'])) = _
              have : findDelim (e :: (rest' ++ [':'])) = some (.kvpHeader, e :: rest', []) := ih1
              simp [findDelim, hc, d1, d2, d3, this]
            · show findDelim (c :: e :: (rest' ++ ['='])) = _
              have : findDelim (e :: (rest' ++ ['='])) = some (.kvpBody, e :: rest', []) := ih2
              simp [findDelim, hc, d1, d2, d3, this]
  exact H p.length p (le_refl _) hp

/-- C8: when the first unescaped `:` or `=` is the last character, the
two-character peek fails without faulting and the token falls back to the
single-character meaning — Header, resp. Body, with an empty value.
Classification is total: every string has a classification. -/
theorem spec_C8_end_of_string (p : Str) (hp : cleanNoDelim p = true) :
    parseKeyValue (p ++ [':']) = (.kvpHeader, unescape p, [])
      ∧ parseKeyValue (p ++ ['=']) = (.kvpBody, unescape p, [])
      ∧ ∀ s : Str, ∃ t k v, parseKeyValue s = (t, k, v) := by
  obtain ⟨h1, h2⟩ := findDelim_snoc p hp
  refine ⟨?_, ?_, fun s => ⟨_, _, _, rfl⟩⟩
  · unfold parseKeyValue
    rw [parseKeyValueAux_eq_findDelim, h1]
    simp [unescape]
  · unfold parseKeyValue
    rw [parseKeyValueAux_eq_findDelim, h2]
    simp [unescape]

theorem spec_C8_witness :
    parseKeyValue (chars "a:") = (.kvpHeader, chars "a", [])
      ∧ parseKeyValue (chars "a=") = (.kvpBody, chars "a", []) := by
  obtain ⟨h1, h2, _⟩ := spec_C8_end_of_string (chars "a") (by decide)
  exact ⟨h1, h2⟩

theorem lookupA_setA_self {α : Type} (m : List (Str × α)) (k : Str) (v : α) :
    lookupA (setA m k v) k = some v := by
  induction m with
  | nil => simp [setA, lookupA]
  | cons kv rest ih =>
    obtain ⟨k0, v0⟩ := kv
    by_cases h : k0 = k
    · simp [setA, h, lookupA]
    · simp [setA, h, lookupA, ih]

theorem lookupA_setA_ne {α : Type} (m : List (Str × α)) (k k' : Str) (v : α)
    (h : ¬ k' = k) : lookupA (setA m k' v) k = lookupA m k := by
  induction m with
  | nil => simp [setA, lookupA, h]
  | cons kv rest ih =>
    obtain ⟨k0, v0⟩ := kv
    by_cases h0 : k0 = k'
    · subst h0
      simp [setA, lookupA, h]
    · by_cases h1 : k0 = k
      · subst h1
        simp [setA, h0, lookupA]
      · simp [setA, h0, lookupA, h1, ih]

/-- A key that names no fragment is untouched by the fragment loop. -/
theorem mergeJsonFragments_lookup_notin (jdec : Str → Option JValue)
    (js : List (Str × Str)) :
    ∀ m0 bp (k : Str), k ∉ js.map Prod.fst →
      mergeJsonFragments jdec js m0 = .ok bp → lookupA bp k = lookupA m0 k := by
  induction js with
  | nil =>
    intro m0 bp k _ h
    have hmb : m0 = bp := Except.ok.inj h
    rw [hmb]
  | cons kv rest ih =>
    intro m0 bp k hk h
    obtain ⟨k', v'⟩ := kv
    rw [mergeJsonFragments, List.foldlM_cons] at h
    cases hj : jdec v' with
    | none => rw [hj] at h; exact Except.noConfusion h
    | some j =>
      rw [hj] at h
      simp only [Except.bind] at h
      have hk1 : ¬ k' = k := fun he => hk (by simp [he])
      have hk2 : k ∉ rest.map Prod.fst := fun hm => hk (by simp [hm])
      rw [ih _ bp k hk2 h, lookupA_setA_ne _ _ _ _ hk1]

/-- The fragment loop stores the decoded value of the last fragment for a
key; with unique keys, the decoded value of that key's fragment. -/
theorem mergeJsonFragments_lookup (jdec : Str → Option JValue)
    (js : List (Str × Str)) :
    ∀ m0 bp (k jtext : Str) (j : JValue), (js.map Prod.fst).Nodup →
      lookupA js k = some jtext → jdec jtext = some j →
      mergeJsonFragments jdec js m0 = .ok bp →
      lookupA bp k = some (.jval j) := by
  induction js with
  | nil => intro m0 bp k jt j _ hl; simp [lookupA] at hl
  | cons kv rest ih =>
    intro m0 bp k jt j hnd hl hj h
    obtain ⟨k', v'⟩ := kv
    rw [mergeJsonFragments, List.foldlM_cons] at h
    by_cases hkk : k' = k
    · subst hkk
      have hjt : jt = v' := by
        have := hl
        simp [lookupA] at this
        exact this.symm
      subst hjt
      rw [hj] at h
      simp only [Except.bind] at h
      have hnd' : (k' :: rest.map Prod.fst).Nodup := by simpa using hnd
      have hk2 : k' ∉ rest.map Prod.fst := (List.nodup_cons.mp hnd').1
      rw [mergeJsonFragments_lookup_notin jdec rest _ bp k' hk2 h, lookupA_setA_self]
    · have hl' : lookupA rest k = some jt := by simpa [lookupA, hkk] using hl
      cases hj' : jdec v' with
      | none => rw [hj'] at h; exact Except.noConfusion h
      | some j0 =>
        rw [hj'] at h
        have hnd' : (k' :: rest.map Prod.fst).Nodup := by simpa using hnd
        exact ih _ bp k jt j (List.nodup_cons.mp hnd').2 hl' hj h

/-- C10: when the same key appears both as a body field and as a `:=`
fragment, the merged Body Parameters map that key to the decoded JSON
value — the fragment loop runs after the body loop and overwrites the
colliding entry. -/
theorem spec_C10_json_overwrites_body (jdec : Str → Option JValue)
    (kvp : Kvpairs) (k jtext : Str) (j : JValue) (bp : List (Str × BodyVal))
    (hnd : (kvp.js.map Prod.fst).Nodup)
    (hl : lookupA kvp.js k = some jtext)
    (hj : jdec jtext = some j)
    (h : bodyParamsOf jdec kvp = .ok bp) :
    lookupA bp k = some (.jval j) :=
  mergeJsonFragments_lookup jdec kvp.js (mergeBodyFields kvp.body) bp k jtext j hnd hl hj h

theorem spec_C10_witness :
    lookupA [(chars "k", BodyVal.jval (.num (chars "1")))] (chars "k")
      = some (.jval (.num (chars "1"))) :=
  spec_C10_json_overwrites_body
    (fun s => if s = chars "1" then some (.num (chars "1")) else none)
    ⟨[], [], [(chars "k", [chars "formv"])], [(chars "k", chars "1")], []⟩
    (chars "k") (chars "1") (.num (chars "1"))
    [(chars "k", BodyVal.jval (.num (chars "1")))]
    (by simp) (by rfl) (by rfl) (by rfl)

/-- Coercing the object's member keys as strings is the same as the
object arm of `addValues` (which discards member values). -/
theorem addObjKeys_eq_addElems_keys (key : Str) (l : List (Str × JValue)) :
    ∀ vals : Vals, addElems vals key (l.map fun kv => JValue.str kv.1)
      = (addObjKeys vals key l, []) := by
  induction l with
  | nil => intro vals; rfl
  | cons kv rest ih =>
    intro vals
    obtain ⟨k, v⟩ := kv
    simp [addElems, addValues, addObjKeys, ih]

/-- C7: Value Coercion flattens a decoded value under one key: booleans
contribute the literals `true`/`false`, a string itself, a number its
decimal rendering, an object the recursive coercion of only its member
keys (member values are discarded: coercion only depends on keys), an
array the recursive coercion of each element under the same key, and the
remaining decoded shape (null) is reported and skipped without aborting. -/
theorem spec_C7_coercion (vals : Vals) (key : Str) :
    (∀ b : Bool, addValues vals key (.bool b)
        = (addV vals key (if b then chars "true" else chars "false"), []))
      ∧ (∀ s, addValues vals key (.str s) = (addV vals key s, []))
      ∧ (∀ n, addValues vals key (.num n) = (addV vals key n, []))
      ∧ (∀ l, addValues vals key (.obj l)
            = addValues vals key (.arr (l.map fun kv => .str kv.1)))
      ∧ (∀ l l', l.map Prod.fst = l'.map Prod.fst →
            addValues vals key (.obj l) = addValues vals key (.obj l'))
      ∧ addValues vals key (.arr []) = (vals, [])
      ∧ (∀ v rest, addValues vals key (.arr (v :: rest))
            = ((addValues (addValues vals key v).1 key (.arr rest)).1,
               (addValues vals key v).2
                 ++ (addValues (addValues vals key v).1 key (.arr rest)).2))
      ∧ addValues vals key .null = (vals, [chars "unknown type"]) := by
  have hobj : ∀ l, addValues vals key (.obj l)
      = addValues vals key (.arr (l.map fun kv => .str kv.1)) := by
    intro l
    show (addObjKeys vals key l, []) = addElems vals key (l.map fun kv => .str kv.1)
    rw [addObjKeys_eq_addElems_keys]
  refine ⟨fun b => ?_, fun s => rfl, fun n => rfl, hobj, fun l l' hmap => ?_,
    rfl, fun v rest => rfl, rfl⟩
  · cases b <;> rfl
  · rw [hobj l, hobj l']
    have : l.map (fun kv => JValue.str kv.1) = l'.map (fun kv => JValue.str kv.1) := by
      have h1 : l.map (fun kv => JValue.str kv.1)
          = (l.map Prod.fst).map JValue.str := by rw [List.map_map]; rfl
      have h2 : l'.map (fun kv => JValue.str kv.1)
          = (l'.map Prod.fst).map JValue.str := by rw [List.map_map]; rfl
      rw [h1, h2, hmap]
    rw [this]

theorem spec_C7_witness :
    addValues [] (chars "k") (.obj [(chars "a", .num (chars "1"))])
        = addValues [] (chars "k") (.obj [(chars "a", .bool true)])
      ∧ addValues [] (chars "k") (.bool true) = (addV [] (chars "k") (chars "true"), []) := by
  obtain ⟨hb, _, _, _, hdis, _, _, _⟩ := spec_C7_coercion ([] : Vals) (chars "k")
  exact ⟨hdis _ _ (by rfl), hb true⟩

theorem strLe_total : ∀ a b : Str, strLe a b = true ∨ strLe b a = true := by
  intro a
  induction a with
  | nil => intro b; left; rfl
  | cons c a' ih =>
    intro b
    cases b with
    | nil => right; rfl
    | cons d b' =>
      by_cases h : c.toNat = d.toNat
      · rcases ih b' with h1 | h1
        · left; simp [strLe, h, h1]
        · right; simp [strLe, h.symm, h1]
      · by_cases h2 : c.toNat < d.toNat
        · left; simp [strLe, h, h2]
        · right
          have hne : ¬ d.toNat = c.toNat := fun he => h he.symm
          have hlt : d.toNat < c.toNat := by omega
          simp [strLe, hne, hlt]

theorem strLe_trans :
    ∀ a b c : Str, strLe a b = true → strLe b c = true → strLe a c = true := by
  intro a
  induction a with
  | nil => intro b c _ _; rfl
  | cons x a' ih =>
    intro b c hab hbc
    cases b with
    | nil => simp [strLe] at hab
    | cons y b' =>
      cases c with
      | nil => simp [strLe] at hbc
      | cons z c' =>
        by_cases hxy : x.toNat = y.toNat
        · by_cases hyz : y.toNat = z.toNat
          · have hxz : x.toNat = z.toNat := by omega
            simp only [strLe, if_pos hxy] at hab
            simp only [strLe, if_pos hyz] at hbc
            simp only [strLe, if_pos hxz]
            exact ih b' c' hab hbc
          · have hy : y.toNat < z.toNat := by
              simp only [strLe, if_neg hyz] at hbc
              simpa using hbc
            have hxz : ¬ x.toNat = z.toNat := by omega
            have hlt : x.toNat < z.toNat := by omega
            simp [strLe, hxz, hlt]
        · have hx : x.toNat < y.toNat := by
            simp only [strLe, if_neg hxy] at hab
            simpa using hab
          by_cases hyz : y.toNat = z.toNat
          · have hxz : ¬ x.toNat = z.toNat := by omega
            have hlt : x.toNat < z.toNat := by omega
            simp [strLe, hxz, hlt]
          · have hy : y.toNat < z.toNat := by
              simp only [strLe, if_neg hyz] at hbc
              simpa using hbc
            have hxz : ¬ x.toNat = z.toNat := by omega
            have hlt : x.toNat < z.toNat := by omega
            simp [strLe, hxz, hlt]

theorem sortMembers_eq_map :
    ∀ l : List (Str × JValue), sortMembers l = l.map fun kv => (kv.1, sortJ kv.2) := by
  intro l
  induction l with
  | nil => rfl
  | cons kv rest ih =>
    obtain ⟨k, v⟩ := kv
    simp [sortMembers, ih]

/-- Inserting into a key-sorted list commutes with mapping over values,
because the order relation only reads keys. -/
theorem orderedInsert_map_value {α β : Type} (g : α → β) (a : Str × α) :
    ∀ l : List (Str × α),
      List.orderedInsert (fun x y => strLe x.1 y.1 = true) (a.1, g a.2)
          (l.map fun kv => (kv.1, g kv.2))
        = (List.orderedInsert (fun x y => strLe x.1 y.1 = true) a l).map
            fun kv => (kv.1, g kv.2) := by
  intro l
  induction l with
  | nil => rfl
  | cons b rest ih =>
    simp only [List.map_cons, List.orderedInsert]
    by_cases h : strLe a.1 b.1 = true
    · simp [h]
    · simp [h, ih]

theorem sortPairs_map_value {α β : Type} (g : α → β) :
    ∀ l : List (Str × α),
      sortPairs (l.map fun kv => (kv.1, g kv.2))
        = (sortPairs l).map fun kv => (kv.1, g kv.2) := by
  intro l
  induction l with
  | nil => rfl
  | cons a rest ih =>
    simp only [List.map_cons, sortPairs, List.insertionSort] at ih ⊢
    rw [ih]
    exact orderedInsert_map_value g a _

/-- The member loop with its `needNL` flag is exactly a `",\n"`-separated
join of the individually rendered members. -/
theorem renderMembers_eq_sepConcat (depth : Nat) :
    ∀ (l : List (Str × JValue)) (needNL : Bool),
      renderMembers depth needNL l
        = (if needNL && !l.isEmpty then chars ",\n" else [])
            ++ sepConcat (chars ",\n")
                (l.map fun kv => indentN depth ++ goQuote kv.1 ++ chars ": "
                   ++ renderSorted (depth + 1) false kv.2) := by
  intro l
  induction l with
  | nil => intro b; simp [renderMembers, sepConcat]
  | cons kv rest ih =>
    intro b
    obtain ⟨k, v⟩ := kv
    simp only [renderMembers, ih true, List.map_cons]
    cases rest with
    | nil => cases b <;> simp [sepConcat]
    | cons kv2 rest2 =>
      cases b <;> simp [sepConcat, List.append_assoc]

/-- C6: the JSON Renderer prints a non-empty object as an opening brace
and newline, the members each on their own line indented `depth` units
with keys sorted bytewise-lexicographically, joined by `",\n"`, then a
newline and the closing brace indented one less unit; sorting makes the
output independent of the mapping's iteration order (the `b`-first and
`a`-first member lists render identically, with key `a` printed first);
the empty object and array render exactly as the two-character `{}` and
`[]`. -/
theorem spec_C6_render (depth : Nat) (ik : Bool) :
    (∀ l : List (Str × JValue), l ≠ [] →
        renderJSON depth ik (.obj l)
            = [lbrace, '\n']
                ++ sepConcat (chars ",\n")
                    ((sortPairs l).map fun kv =>
                       indentN depth ++ goQuote kv.1 ++ chars ": "
                         ++ renderJSON (depth + 1) false kv.2)
                ++ '\n' :: indentN (depth - 1) ++ [rbrace]
          ∧ ((sortPairs l).map Prod.fst).Pairwise (fun a b => strLe a b = true))
      ∧ renderJSON depth ik (.obj []) = [lbrace, rbrace]
      ∧ renderJSON depth ik (.arr []) = chars "[]"
      ∧ renderJSON 1 false (.obj [(chars "b", .num (chars "1")), (chars "a", .num (chars "2"))])
          = renderJSON 1 false (.obj [(chars "a", .num (chars "2")), (chars "b", .num (chars "1"))])
      ∧ renderJSON 1 false (.obj [(chars "b", .num (chars "1")), (chars "a", .num (chars "2"))])
          = chars "\x7b\n    \"a\": 2,\n    \"b\": 1\n\x7d" := by
  refine ⟨fun l hl => ⟨?_, ?_⟩, rfl, rfl, by decide, by decide⟩
  · show renderSorted depth ik (sortJ (.obj l)) = _
    have h0 : sortJ (.obj l) = .obj ((sortPairs l).map fun kv => (kv.1, sortJ kv.2)) := by
      simp only [sortJ, sortMembers_eq_map, sortPairs_map_value]
    rw [h0]
    have hsp : sortPairs l ≠ [] := by
      intro hnil
      have hperm : (sortPairs l).Perm l :=
        List.perm_insertionSort (fun a b : Str × JValue => strLe a.1 b.1 = true) l
      rw [hnil] at hperm
      exact hl hperm.symm.eq_nil
    obtain ⟨kv, rest, hsp2⟩ := List.exists_cons_of_ne_nil hsp
    rw [hsp2]
    simp only [List.map_cons, renderSorted]
    rw [show ((kv.1, sortJ kv.2) :: (rest.map fun kv => (kv.1, sortJ kv.2)))
          = ((kv :: rest).map fun kv => (kv.1, sortJ kv.2)) from rfl,
        renderMembers_eq_sepConcat depth _ false]
    simp [List.map_map, renderJSON, Function.comp]
    rfl
  · haveI : IsTotal (Str × JValue) (fun a b => strLe a.1 b.1 = true) :=
      ⟨fun a b => strLe_total a.1 b.1⟩
    haveI : IsTrans (Str × JValue) (fun a b => strLe a.1 b.1 = true) :=
      ⟨fun a b c => strLe_trans a.1 b.1 c.1⟩
    have hs := List.sorted_insertionSort (fun a b : Str × JValue => strLe a.1 b.1 = true) l
    exact hs.map Prod.fst fun a b hab => hab

theorem spec_C6_witness :
    renderJSON 1 false (.obj [(chars "b", .num (chars "1")), (chars "a", .num (chars "2"))])
        = [lbrace, '\n']
            ++ sepConcat (chars ",\n")
                ((sortPairs [(chars "b", .num (chars "1")), (chars "a", .num (chars "2"))]).map
                   fun kv => indentN 1 ++ goQuote kv.1 ++ chars ": "
                     ++ renderJSON 2 false kv.2)
            ++ '\n' :: indentN 0 ++ [rbrace] :=
  ((spec_C6_render 1 false).1
    [(chars "b", .num (chars "1")), (chars "a", .num (chars "2"))] (by simp)).1

/-- An empty bundle (no body fields, fragments or files) produces no
payload, sets no content type, and leaves the method untouched. -/
theorem finishRequest_no_body (fs : Str → Option Str) (jd : Str → Option JValue)
    (pf um : Bool) (pc : ParsedCmd) (r : Result)
    (hb : pc.kvp.body = []) (hj : pc.kvp.js = []) (hf : pc.kvp.file = [])
    (h : finishRequest fs jd pf um pc = .ok r) :
    r.body = none ∧ r.contentType = none ∧ r.method = pc.method := by
  obtain ⟨m, mp, ub, rq0, kvp⟩ := pc
  obtain ⟨hs, q, b, j, f⟩ := kvp
  simp only at hb hj hf
  subst hb; subst hj; subst hf
  have hbp : bodyParamsOf jd ⟨hs, q, [], [], []⟩ = .ok [] := rfl
  have hasm : assembleBody fs pf um ⟨hs, q, [], [], []⟩ [] = .ok (none, none, []) := rfl
  simp only [finishRequest, hbp, hasm] at h
  have hr := Except.ok.inj h
  rw [← hr]
  exact ⟨rfl, rfl, by simp⟩

/-- When a payload was produced and no method was explicitly supplied,
the effective method becomes POST. -/
theorem finishRequest_post_default (fs : Str → Option Str) (jd : Str → Option JValue)
    (pf um : Bool) (pc : ParsedCmd) (r : Result)
    (h : finishRequest fs jd pf um pc = .ok r)
    (hmp : pc.methodProvided = false) (hb : r.body ≠ none) :
    r.method = chars "POST" := by
  simp only [finishRequest] at h
  split at h
  · exact Except.noConfusion h
  · split at h
    · exact Except.noConfusion h
    · rename_i bp bodyOpt ctOpt warns heq
      have hr := Except.ok.inj h
      rw [← hr] at hb ⊢
      simp only [hmp] at hb ⊢
      cases bodyOpt with
      | none => simp at hb
      | some content => simp

/-- An explicitly supplied method is never overridden. -/
theorem finishRequest_method_explicit (fs : Str → Option Str) (jd : Str → Option JValue)
    (pf um : Bool) (pc : ParsedCmd) (r : Result)
    (h : finishRequest fs jd pf um pc = .ok r)
    (hmp : pc.methodProvided = true) :
    r.method = pc.method := by
  simp only [finishRequest] at h
  split at h
  · exact Except.noConfusion h
  · split at h
    · exact Except.noConfusion h
    · rename_i bp bodyOpt ctOpt warns heq
      have hr := Except.ok.inj h
      rw [← hr]
      simp [hmp]

/-- The prologue: a leading method token is taken as the method and marks
it provided; otherwise, with the form flag off, GET is the unprovided
default. -/
theorem parseCmdline_method (pf : Bool) (a0 : Str) (rest : List Str) (pc : ParsedCmd)
    (h : parseCmdline pf (a0 :: rest) = .ok pc) :
    (a0 ∈ methodNames → pc.method = a0 ∧ pc.methodProvided = true)
      ∧ (a0 ∉ methodNames → pf = false →
          pc.method = chars "GET" ∧ pc.methodProvided = false) := by
  by_cases hm : a0 ∈ methodNames
  · refine ⟨fun _ => ?_, fun hn _ => absurd hm hn⟩
    simp only [parseCmdline, hm, if_pos] at h
    split at h
    · exact Except.noConfusion h
    · split at h
      · exact Except.noConfusion h
      · have hr := Except.ok.inj h
        rw [← hr]
        exact ⟨rfl, rfl⟩
  · refine ⟨fun hmem => absurd hmem hm, fun _ hpf => ?_⟩
    subst hpf
    simp only [parseCmdline, hm, if_neg, Bool.false_eq_true, if_false] at h
    split at h
    · exact Except.noConfusion h
    · have hr := Except.ok.inj h
      rw [← hr]
      exact ⟨rfl, rfl⟩

/-- C5: with no body content and no files, no payload is produced, no
content type is forced and the method is left as parsed; a produced
payload with no explicitly supplied method turns the method into POST; an
explicitly supplied method is never overridden; the prologue provides the
method exactly for a leading method token (else GET, unprovided, when the
form flag is off); and the end-to-end example
`["httpbin.org/get", "q==5"]` compiles to a GET of
`http://httpbin.org/get?q=5` with no body and no content type. -/
theorem spec_C5_no_body_get :
    (∀ fs jd pf um pc r, pc.kvp.body = [] → pc.kvp.js = [] → pc.kvp.file = [] →
        finishRequest fs jd pf um pc = .ok r →
        r.body = none ∧ r.contentType = none ∧ r.method = pc.method)
      ∧ (∀ fs jd pf um pc r, finishRequest fs jd pf um pc = .ok r →
          pc.methodProvided = false → r.body ≠ none → r.method = chars "POST")
      ∧ (∀ fs jd pf um pc r, finishRequest fs jd pf um pc = .ok r →
          pc.methodProvided = true → r.method = pc.method)
      ∧ (∀ pf a0 rest pc, parseCmdline pf (a0 :: rest) = .ok pc →
          (a0 ∈ methodNames → pc.method = a0 ∧ pc.methodProvided = true)
            ∧ (a0 ∉ methodNames → pf = false →
                pc.method = chars "GET" ∧ pc.methodProvided = false))
      ∧ compile fsEmpty jdecNone false true [chars "httpbin.org/get", chars "q==5"]
          = .ok ⟨chars "GET", chars "http://httpbin.org/get", chars "q=5",
                 none, none, []⟩ :=
  ⟨fun fs jd pf um pc r hb hj hf h => finishRequest_no_body fs jd pf um pc r hb hj hf h,
   fun fs jd pf um pc r h hmp hb => finishRequest_post_default fs jd pf um pc r h hmp hb,
   fun fs jd pf um pc r h hmp => finishRequest_method_explicit fs jd pf um pc r h hmp,
   fun pf a0 rest pc h => parseCmdline_method pf a0 rest pc h,
   rfl⟩

theorem spec_C5_witness :
    (⟨chars "POST", chars "http://example.com", [],
        some (chars "\x7b\"k\":\"v\"\x7d"), some ctJson, []⟩ : Result).method
      = chars "POST" :=
  spec_C5_no_body_get.2.1 fsEmpty jdecNone false true
    ⟨chars "GET", false, chars "http://example.com", [],
      ⟨[], [], [(chars "k", [chars "v"])], [], []⟩⟩
    ⟨chars "POST", chars "http://example.com", [],
      some (chars "\x7b\"k\":\"v\"\x7d"), some ctJson, []⟩
    (by rfl) (by rfl) (by simp)

/-- C4 (counterexample): with the form flag on and a bundle containing no
body fields, no json fragments and no file entries, the code produces no
payload and no content type at all — the UrlEncoded branch is not taken,
so the claim that UrlEncoded is still selected (content type
`application/x-www-form-urlencoded`, payload from the empty parameters)
is false at this input. -/
theorem spec_C4_counterexample :
    compile fsEmpty jdecNone true true [chars "example.com"]
        = .ok ⟨chars "POST", chars "http://example.com", [], none, none, []⟩
      ∧ (none : Option Str) ≠ some ctUrlEncoded :=
  ⟨rfl, by simp⟩

/-- C4 (amended): when form mode is requested and the bundle contains no
body fields, no json fragments and no file entries, the Body Assembler
produces no payload and sets no content type — the UrlEncoded branch
requires at least one body parameter or file entry. -/
theorem spec_C4_empty_form (fs : Str → Option Str) (jd : Str → Option JValue)
    (um : Bool) (pc : ParsedCmd) (r : Result)
    (hb : pc.kvp.body = []) (hj : pc.kvp.js = []) (hf : pc.kvp.file = [])
    (h : finishRequest fs jd true um pc = .ok r) :
    r.body = none ∧ r.contentType = none :=
  ⟨(finishRequest_no_body fs jd true um pc r hb hj hf h).1,
   (finishRequest_no_body fs jd true um pc r hb hj hf h).2.1⟩

theorem spec_C4_witness :
    (⟨chars "POST", chars "http://example.com", [], none, none, []⟩ : Result).body = none
      ∧ (⟨chars "POST", chars "http://example.com", [],
            none, none, []⟩ : Result).contentType = none :=
  spec_C4_empty_form fsEmpty jdecNone true
    ⟨chars "POST", true, chars "http://example.com", [], ⟨[], [], [], [], []⟩⟩
    ⟨chars "POST", chars "http://example.com", [], none, none, []⟩
    rfl rfl rfl rfl

/-- C3 (counterexample): a bundle whose file map contains the reserved
key `"-"` (here mapped to the empty filename, as produced by the token
`-@`) together with an additional file entry does NOT abort with the
multiple-raw-body-files error: the raw branch tests the filename, not the
key, so the code falls through to the file-reading branch and dies with a
file-open error instead. -/
theorem spec_C3_counterexample :
    compile (fun p => if p = chars "f" then some (chars "data") else none) jdecNone
        false true [chars "example.com", chars "-@", chars "x@f"]
        = .error (.fileOpen [])
      ∧ GErr.fileOpen [] ≠ GErr.multipleRawBodyFiles :=
  ⟨rfl, by simp⟩

/-- C3 (amended): when the file map sends `"-"` to a NON-empty filename,
the assembler behaves as claimed: any additional file entry is a fatal
multiple-raw-body-files error; with a single entry the payload is exactly
that file's bytes under content type `application/octet-stream`, and
non-empty Body Parameters only add a non-fatal ignored-parameters
warning, never an error. -/
theorem spec_C3_raw_body (fs : Str → Option Str) (jd : Str → Option JValue)
    (pf um : Bool) (pc : ParsedCmd) (bp : List (Str × BodyVal)) (f content : Str)
    (hraw : lookupA pc.kvp.file (chars "-") = some f) (hne : f ≠ [])
    (hbp : bodyParamsOf jd pc.kvp = .ok bp) :
    (1 < pc.kvp.file.length → finishRequest fs jd pf um pc = .error .multipleRawBodyFiles)
      ∧ (¬ 1 < pc.kvp.file.length → fs f = some content →
          finishRequest fs jd pf um pc
            = .ok ⟨(if pc.methodProvided then pc.method else chars "POST"),
                   pc.urlBase,
                   (if !pc.kvp.query.isEmpty
                      then encodeValues (addQueryParams (parseQuery pc.rawQuery0) pc.kvp.query)
                      else pc.rawQuery0),
                   some content, some ctOctetStream,
                   (if bp.isEmpty then [] else [rawBodyWarning])⟩) := by
  constructor
  · intro hlen
    have hasm : assembleBody fs pf um pc.kvp bp = .error .multipleRawBodyFiles := by
      simp only [assembleBody, hraw, Option.getD_some]
      simp [hne, hlen]
    simp only [finishRequest, hbp, hasm]
  · intro hlen hfs
    have hasm : assembleBody fs pf um pc.kvp bp
        = .ok (some content, some ctOctetStream,
               if bp.isEmpty then [] else [rawBodyWarning]) := by
      simp only [assembleBody, hraw, Option.getD_some]
      simp [hne, hlen, hfs]
    simp only [finishRequest, hbp, hasm]
    cases hmp : pc.methodProvided <;> simp

theorem spec_C3_witness :
    finishRequest (fun p => if p = chars "body.bin" then some (chars "DATA") else none)
        jdecNone false true
        ⟨chars "GET", false, chars "http://e", [],
          ⟨[], [], [(chars "k", [chars "v"])], [], [(chars "-", chars "body.bin")]⟩⟩
      = .ok ⟨chars "POST", chars "http://e", [],
             some (chars "DATA"), some ctOctetStream, [rawBodyWarning]⟩ :=
  (spec_C3_raw_body
      (fun p => if p = chars "body.bin" then some (chars "DATA") else none)
      jdecNone false true
      ⟨chars "GET", false, chars "http://e", [],
        ⟨[], [], [(chars "k", [chars "v"])], [], [(chars "-", chars "body.bin")]⟩⟩
      [(chars "k", BodyVal.str (chars "v"))]
      (chars "body.bin") (chars "DATA")
      rfl (by decide) rfl).2 (by decide) rfl

end Gttp
